import Mathlib

/-!
Verification of the CHAMP alignment engine (`champ/fastqimagealigner.py`,
`champ/imagedata.py`) via a shallow embedding in Lean 4.

Conventions:
* numpy floating point values are modelled as rationals (`ℚ`);
* external numeric routines whose exact values do not matter for a claim
  (FFT peak correlation of a tile, numpy percentile, trigonometric
  functions) are passed in as function parameters;
* fallible code is modelled with `Except`/`Option`;
* `List.insertionSort` stands in for the sorting numpy/Python perform
  (any correct stable sort produces the same list).
-/

namespace Champ

/-! ## Image surface (`champ/imagedata.py`) -/

/-- numpy-style median of a list of rationals: the average of the two middle
elements of the sorted list (`(s[(n-1)/2] + s[n/2]) / 2`, which equals the
middle element when the length is odd).  Embeds `np.median`. -/
def npMedian (l : List ℚ) : ℚ :=
  let s := l.insertionSort (fun a b => a ≤ b)
  (s.getD ((l.length - 1) / 2) 0 + s.getD (l.length / 2) 0) / 2

/-- `ImageData.median_normalize` (imagedata.py lines 16-20): divide every
pixel by the image median, then subtract 1.  The image is a 2-D grid of
pixel values; `np.median` acts on the flattened grid. -/
def median_normalize (image : List (List ℚ)) : List (List ℚ) :=
  let med := npMedian image.flatten
  image.map (fun row => row.map (fun p => p / med - 1))

/-- Modelled from the spec: `misc.next_power_of_2` (champ/misc.py is not
among the sources) — the smallest power of two that is ≥ the argument. -/
def next_power_of_2 (n : ℕ) : ℕ := 2 ^ Nat.clog 2 n

/-- `ImageData.set_fft` (imagedata.py lines 23-32), shape bookkeeping: the
image of shape `(h, w)` is zero-padded by `np.pad` with
`((padding0, dimension - totalx), (padding1, dimension - totaly))`, and the
result must be the square `(dimension, dimension)`, else a `ValueError`
is raised.  Returns the padded shape. -/
def set_fft (shape padding : ℕ × ℕ) : Except String (ℕ × ℕ) :=
  let totalx := padding.1 + shape.1
  let totaly := padding.2 + shape.2
  let dimension := max (next_power_of_2 totalx) (next_power_of_2 totaly)
  let paddedShape := (shape.1 + (padding.1 + (dimension - totalx)),
                      shape.2 + (padding.2 + (dimension - totaly)))
  if paddedShape = (dimension, dimension) then Except.ok paddedShape
  else Except.error "FFT of microscope image is not a power of 2, this will cause the program to stall."

/-! ### Supporting lemmas for the image surface -/

lemma le_next_power_of_2 (n : ℕ) : n ≤ next_power_of_2 n :=
  Nat.le_pow_clog one_lt_two n

lemma next_power_of_2_le {n k : ℕ} (h : n ≤ 2 ^ k) : next_power_of_2 n ≤ 2 ^ k :=
  Nat.pow_le_pow_right (by norm_num) ((Nat.le_pow_iff_clog_le one_lt_two).mp h)

lemma insertionSort_replicate (n : ℕ) (m : ℚ) :
    (List.replicate n m).insertionSort (fun a b => a ≤ b) = List.replicate n m := by
  have hperm := List.perm_insertionSort (fun a b => a ≤ b) (List.replicate n m)
  refine List.eq_replicate_iff.mpr ⟨?_, ?_⟩
  · simp [hperm.length_eq]
  · intro b hb
    exact List.eq_of_mem_replicate (hperm.mem_iff.mp hb)

lemma getD_replicate_of_lt {n i : ℕ} (m : ℚ) (hi : i < n) :
    (List.replicate n m).getD i 0 = m := by
  rw [List.getD_eq_getElem?_getD]
  rw [List.getElem?_eq_getElem (by simpa using hi)]
  simp

lemma npMedian_replicate {n : ℕ} (m : ℚ) (hn : 0 < n) :
    npMedian (List.replicate n m) = m := by
  unfold npMedian
  rw [insertionSort_replicate]
  simp only [List.length_replicate]
  rw [getD_replicate_of_lt m (by omega), getD_replicate_of_lt m (by omega)]
  ring

lemma flatten_replicate_replicate (h w : ℕ) (m : ℚ) :
    (List.replicate h (List.replicate w m)).flatten = List.replicate (h * w) m := by
  induction h with
  | zero => simp
  | succ k ih =>
      simp only [List.replicate_succ, List.flatten_cons, ih]
      rw [← List.replicate_add]
      ring_nf

/-! ### C8 and C6 -/

/-- C8: median-normalizing a constant-valued 2-D image of value `m > 0`
yields the all-zero image of the same shape: every pixel is divided by the
image median (= `m`) and then 1 is subtracted. -/
theorem median_normalize_const (m : ℚ) (h w : ℕ) (hm : 0 < m) (hh : 0 < h) (hw : 0 < w) :
    median_normalize (List.replicate h (List.replicate w m)) =
      List.replicate h (List.replicate w 0) := by
  unfold median_normalize
  rw [flatten_replicate_replicate, npMedian_replicate m (Nat.mul_pos hh hw)]
  have hrow : (List.replicate w m).map (fun p => p / m - 1) = List.replicate w 0 := by
    rw [List.map_replicate, div_self (ne_of_gt hm)]
    norm_num
  rw [List.map_replicate, hrow]

/-- Witness for C8 at the concrete image `[[2, 2], [2, 2]]`. -/
theorem median_normalize_const_witness :
    (0 : ℚ) < 2 ∧
      median_normalize [[2, 2], [2, 2]] = [[0, 0], [0, 0]] := by
  refine ⟨by norm_num, ?_⟩
  have := median_normalize_const 2 2 2 (by norm_num) (by norm_num) (by norm_num)
  simpa [List.replicate] using this

/-- C6: preparing the correlation transform for an image of shape `(h, w)`
with padding `(ph, pw)` succeeds and yields a square padded array whose side
is the smallest power of two ≥ `max (h + ph) (w + pw)` (the mismatched-shape
`ValueError` branch of `set_fft` is never taken). -/
theorem set_fft_power_of_two_square (h w ph pw : ℕ) :
    ∃ d, set_fft (h, w) (ph, pw) = Except.ok (d, d)
      ∧ (∃ k, d = 2 ^ k)
      ∧ max (h + ph) (w + pw) ≤ d
      ∧ (∀ k, max (h + ph) (w + pw) ≤ 2 ^ k → d ≤ 2 ^ k) := by
  classical
  refine ⟨max (next_power_of_2 (ph + h)) (next_power_of_2 (pw + w)), ?_, ?_, ?_, ?_⟩
  · unfold set_fft
    have hx : ph + h ≤ max (next_power_of_2 (ph + h)) (next_power_of_2 (pw + w)) :=
      le_trans (le_next_power_of_2 _) (le_max_left _ _)
    have hy : pw + w ≤ max (next_power_of_2 (ph + h)) (next_power_of_2 (pw + w)) :=
      le_trans (le_next_power_of_2 _) (le_max_right _ _)
    have e1 : h + (ph + (max (next_power_of_2 (ph + h)) (next_power_of_2 (pw + w)) - (ph + h)))
        = max (next_power_of_2 (ph + h)) (next_power_of_2 (pw + w)) := by omega
    have e2 : w + (pw + (max (next_power_of_2 (ph + h)) (next_power_of_2 (pw + w)) - (pw + w)))
        = max (next_power_of_2 (ph + h)) (next_power_of_2 (pw + w)) := by omega
    simp only [e1, e2, if_pos]
  · rcases le_total (next_power_of_2 (ph + h)) (next_power_of_2 (pw + w)) with hle | hle
    · exact ⟨Nat.clog 2 (pw + w), by rw [max_eq_right hle]; rfl⟩
    · exact ⟨Nat.clog 2 (ph + h), by rw [max_eq_left hle]; rfl⟩
  · have a1 : h + ph ≤ next_power_of_2 (ph + h) := by
      rw [Nat.add_comm]; exact le_next_power_of_2 _
    have a2 : w + pw ≤ next_power_of_2 (pw + w) := by
      rw [Nat.add_comm]; exact le_next_power_of_2 _
    exact max_le_max a1 a2
  · intro k hk
    have h1 : h + ph ≤ 2 ^ k := le_trans (le_max_left _ _) hk
    have h2 : w + pw ≤ 2 ^ k := le_trans (le_max_right _ _) hk
    exact max_le (next_power_of_2_le (by omega)) (next_power_of_2_le (by omega))

/-! ## Rough alignment: `FastqImageAligner.find_hitting_tiles`
(fastqimagealigner.py lines 127-177) -/

/-- A fastq tile as `find_hitting_tiles` sees it: its dictionary key and its
read names (only the key and the read count matter to the control-flow). -/
structure Tile where
  key : String
  readNames : List String
deriving DecidableEq

/-- The side-1 variant of a tile key (fastqimagealigner.py line 133):
`possible_tiles[:9] + "1" + possible_tiles[10:]` replaces the character at
index 9 with `"1"`. -/
def sideOneKey (k : String) : String :=
  k.take 9 ++ "1" ++ k.drop 10

/-- Dictionary lookup `self.fastq_tiles[key]` guarded by
`if key in self.fastq_tiles`, for a whole list of keys. -/
def lookupTiles (fastqTiles : List Tile) (keys : List String) : List Tile :=
  keys.filterMap (fun k => fastqTiles.find? (fun t => t.key = k))

/-- The candidate (`possible_tiles`) list of `find_hitting_tiles`
(fastqimagealigner.py lines 130-142).  Lines 130-139 compute a
side-dependent list, but lines 141-142 then recompute `possible_tiles`
from the unmodified `possible_tile_keys`, discarding the side-dependent
result; the embedding reproduces that. -/
def findHittingTilesCandidates (fastqTiles : List Tile) (side1 : Bool)
    (possibleTileKeys : List String) : List Tile :=
  let _sideDependent :=
    if side1 then
      lookupTiles fastqTiles (possibleTileKeys.map sideOneKey)
    else
      lookupTiles fastqTiles possibleTileKeys
  lookupTiles fastqTiles possibleTileKeys

/-- `impossible_tiles` (line 147): every loaded tile that is not among the
candidates, in catalog order. -/
def impossibleTiles (fastqTiles possibleTiles : List Tile) : List Tile :=
  fastqTiles.filter (fun t => ¬ (t ∈ possibleTiles))

/-- The sort key of line 148, `key=lambda tile: -len(tile.read_names)`:
`a` comes no later than `b` iff `a` has at least as many reads. -/
def moreReads (a b : Tile) : Prop :=
  b.readNames.length ≤ a.readNames.length

instance : DecidableRel moreReads := fun _ _ => Nat.decLe _ _

instance : IsTotal Tile moreReads :=
  ⟨fun a b => Nat.le_total b.readNames.length a.readNames.length⟩

instance : IsTrans Tile moreReads :=
  ⟨fun _ _ _ hab hbc => le_trans hbc hab⟩

/-- `control_tiles` (lines 148-150): sort the non-candidate tiles by
descending read count (Python's stable `sort(key=lambda t: -len(t.read_names))`)
and keep the first two. -/
def controlTiles (fastqTiles possibleTiles : List Tile) : List Tile :=
  ((impossibleTiles fastqTiles possibleTiles).insertionSort moreReads).take 2

/-- The `control_corr` loop (lines 153-163): starting from 0, replace the
accumulator by a control tile's peak correlation whenever it is larger.
`corr` abstracts `tile.fft_align_with_im(self.image_data)[0]`. -/
def controlCorr (corr : Tile → ℚ) (ctrl : List Tile) : ℚ :=
  ctrl.foldl (fun acc t => if corr t > acc then corr t else acc) 0

/-- The hitting-tile loop (lines 165-177): a candidate tile is appended to
`self.hitting_tiles` iff its peak correlation exceeds
`snr_thresh * self.control_corr`. -/
def findHittingTiles (corr : Tile → ℚ) (fastqTiles : List Tile) (side1 : Bool)
    (possibleTileKeys : List String) (snrThresh : ℚ) : List Tile :=
  let possibleTiles := findHittingTilesCandidates fastqTiles side1 possibleTileKeys
  let cc := controlCorr corr (controlTiles fastqTiles possibleTiles)
  possibleTiles.foldl (fun acc t => if corr t > snrThresh * cc then acc ++ [t] else acc) []

/-! ### Supporting lemmas for rough alignment -/

lemma foldl_if_append_eq_filter {α : Type} (p : α → Prop) [DecidablePred p] :
    ∀ (l acc : List α),
      l.foldl (fun a t => if p t then a ++ [t] else a) acc = acc ++ l.filter (fun t => p t) := by
  intro l
  induction l with
  | nil => intro acc; simp
  | cons x xs ih =>
      intro acc
      by_cases hx : p x
      · simp [List.foldl_cons, hx, ih, List.filter_cons]
      · simp [List.foldl_cons, hx, ih, List.filter_cons]

lemma controlCorr_le_init (corr : Tile → ℚ) :
    ∀ (l : List Tile) (init : ℚ),
      init ≤ l.foldl (fun acc t => if corr t > acc then corr t else acc) init := by
  intro l
  induction l with
  | nil => intro init; simp
  | cons x xs ih =>
      intro init
      refine le_trans ?_ (ih _)
      by_cases hx : corr x > init <;> simp [hx]
      exact le_of_lt hx

lemma controlCorr_ge_mem (corr : Tile → ℚ) :
    ∀ (l : List Tile) (init : ℚ) (t : Tile), t ∈ l →
      corr t ≤ l.foldl (fun acc t => if corr t > acc then corr t else acc) init := by
  intro l
  induction l with
  | nil => intro _ t ht; cases ht
  | cons x xs ih =>
      intro init t ht
      rcases List.mem_cons.mp ht with rfl | hmem
      · refine le_trans ?_ (controlCorr_le_init corr xs _)
        by_cases hx : corr t > init <;> simp [hx]
        exact le_of_not_lt hx
      · exact ih _ t hmem

lemma controlCorr_attained (corr : Tile → ℚ) :
    ∀ (l : List Tile) (init : ℚ),
      l.foldl (fun acc t => if corr t > acc then corr t else acc) init = init
        ∨ ∃ t ∈ l, l.foldl (fun acc t => if corr t > acc then corr t else acc) init = corr t := by
  intro l
  induction l with
  | nil => intro init; exact Or.inl rfl
  | cons x xs ih =>
      intro init
      rw [List.foldl_cons]
      by_cases hx : corr x > init
      · simp only [if_pos hx]
        rcases ih (corr x) with h | ⟨t, ht, h⟩
        · exact Or.inr ⟨x, List.mem_cons_self x xs, h⟩
        · exact Or.inr ⟨t, List.mem_cons_of_mem x ht, h⟩
      · simp only [if_neg hx]
        rcases ih init with h | ⟨t, ht, h⟩
        · exact Or.inl h
        · exact Or.inr ⟨t, List.mem_cons_of_mem x ht, h⟩

/-! ### C1, C3, C4 -/

/-- C1 (refuted — code slip): with the side-selection flag set, the
side-1 variant of the requested key present in the tile catalog, the
candidate list still consists of the original (side-2 numbered) key's tile:
lines 141-142 of fastqimagealigner.py recompute `possible_tiles` from the
unmodified keys, discarding the side-1 restriction of lines 130-135. -/
theorem find_hitting_tiles_side1_ignored :
    sideOneKey "lane1tile2101" = "lane1tile1101"
    ∧ findHittingTilesCandidates
        [⟨"lane1tile1101", []⟩, ⟨"lane1tile2101", []⟩] true ["lane1tile2101"]
        = [⟨"lane1tile2101", []⟩]
    ∧ findHittingTilesCandidates
        [⟨"lane1tile1101", []⟩, ⟨"lane1tile2101", []⟩] true ["lane1tile2101"]
      = findHittingTilesCandidates
        [⟨"lane1tile1101", []⟩, ⟨"lane1tile2101", []⟩] false ["lane1tile2101"] := by
  refine ⟨rfl, ?_, rfl⟩
  rfl

/-- C3: a candidate tile is appended to the hitting-tile list iff its peak
correlation strictly exceeds `snr_thresh` times the control correlation
(fastqimagealigner.py lines 165-177). -/
theorem hitting_tile_iff (corr : Tile → ℚ) (fastqTiles : List Tile) (side1 : Bool)
    (possibleTileKeys : List String) (snrThresh : ℚ) (t : Tile) :
    t ∈ findHittingTiles corr fastqTiles side1 possibleTileKeys snrThresh ↔
      t ∈ findHittingTilesCandidates fastqTiles side1 possibleTileKeys
      ∧ corr t > snrThresh * controlCorr corr
          (controlTiles fastqTiles (findHittingTilesCandidates fastqTiles side1 possibleTileKeys)) := by
  unfold findHittingTiles
  rw [foldl_if_append_eq_filter
    (fun t => corr t > snrThresh * controlCorr corr
      (controlTiles fastqTiles (findHittingTilesCandidates fastqTiles side1 possibleTileKeys)))]
  simp [List.mem_filter]

/-- C4: `control_corr` is the maximum, starting from zero, of the peak
correlations of the control tiles, and the control tiles are (at most) two
tiles outside the candidate subset whose read counts dominate every other
non-candidate tile's (fastqimagealigner.py lines 147-164). -/
theorem control_corr_spec (corr : Tile → ℚ) (fastqTiles : List Tile) (side1 : Bool)
    (possibleTileKeys : List String) :
    (0 ≤ controlCorr corr (controlTiles fastqTiles
        (findHittingTilesCandidates fastqTiles side1 possibleTileKeys)))
    ∧ (∀ t ∈ controlTiles fastqTiles
          (findHittingTilesCandidates fastqTiles side1 possibleTileKeys),
        corr t ≤ controlCorr corr (controlTiles fastqTiles
          (findHittingTilesCandidates fastqTiles side1 possibleTileKeys)))
    ∧ (controlCorr corr (controlTiles fastqTiles
          (findHittingTilesCandidates fastqTiles side1 possibleTileKeys)) = 0
        ∨ ∃ t ∈ controlTiles fastqTiles
            (findHittingTilesCandidates fastqTiles side1 possibleTileKeys),
            controlCorr corr (controlTiles fastqTiles
              (findHittingTilesCandidates fastqTiles side1 possibleTileKeys)) = corr t)
    ∧ (controlTiles fastqTiles
          (findHittingTilesCandidates fastqTiles side1 possibleTileKeys)).length
        = min 2 (impossibleTiles fastqTiles
            (findHittingTilesCandidates fastqTiles side1 possibleTileKeys)).length
    ∧ (∀ t ∈ controlTiles fastqTiles
          (findHittingTilesCandidates fastqTiles side1 possibleTileKeys),
        t ∈ impossibleTiles fastqTiles
          (findHittingTilesCandidates fastqTiles side1 possibleTileKeys))
    ∧ ∃ rest,
        (controlTiles fastqTiles
            (findHittingTilesCandidates fastqTiles side1 possibleTileKeys) ++ rest).Perm
          (impossibleTiles fastqTiles
            (findHittingTilesCandidates fastqTiles side1 possibleTileKeys))
        ∧ ∀ t ∈ controlTiles fastqTiles
              (findHittingTilesCandidates fastqTiles side1 possibleTileKeys),
            ∀ u ∈ rest, u.readNames.length ≤ t.readNames.length := by
  set possible := findHittingTilesCandidates fastqTiles side1 possibleTileKeys with hp
  set imp := impossibleTiles fastqTiles possible with himp
  set sorted := imp.insertionSort moreReads with hsorted
  have hct : controlTiles fastqTiles possible = sorted.take 2 := rfl
  have hperm : sorted.Perm imp := List.perm_insertionSort moreReads imp
  have hsortedPW : List.Pairwise moreReads sorted := List.sorted_insertionSort moreReads imp
  refine ⟨?_, ?_, ?_, ?_, ?_, ?_⟩
  · exact controlCorr_le_init corr _ 0
  · intro t ht
    exact controlCorr_ge_mem corr _ 0 t ht
  · rcases controlCorr_attained corr (controlTiles fastqTiles possible) 0 with h | ⟨t, ht, h⟩
    · exact Or.inl h
    · exact Or.inr ⟨t, ht, h⟩
  · rw [hct, List.length_take, hperm.length_eq]
  · intro t ht
    rw [hct] at ht
    exact hperm.mem_iff.mp (List.take_subset 2 sorted ht)
  · refine ⟨sorted.drop 2, ?_, ?_⟩
    · rw [hct, List.take_append_drop]
      exact hperm
    · intro t ht u hu
      rw [hct] at ht
      have := (List.pairwise_append.mp
        (by rw [List.take_append_drop] at *; exact hsortedPW : List.Pairwise moreReads (sorted.take 2 ++ sorted.drop 2))).2.2
      exact this t ht u hu

/-! ## Hit classification: `FastqImageAligner.find_hits`
(fastqimagealigner.py lines 218-293)

The two directional nearest-neighbor relations (`cluster_to_aligned_indexes`
and `aligned_to_cluster_indexs_rev`, both sets of
`(cluster_index, aligned_in_frame_idx)` pairs produced by the KDTree
queries) enter the classification stage as data; `d` abstracts
`single_hit_dist` (the Euclidean distance of a hit) and `ght` the
`good_hit_threshold` of lines 253-258. -/

/-- A hit: `(cluster_index, aligned_in_frame_idx)`. -/
abbrev Hit := ℕ × ℕ

/-- `mutual_hits` (line 240): the intersection of the two directional
nearest-neighbor relations. -/
def mutualHitsOf (c2a a2c : Finset Hit) : Finset Hit := c2a ∩ a2c

/-- `non_mutual_hits` (line 241): the symmetric difference `^` of the two
directional nearest-neighbor relations. -/
def nonMutualHitsOf (c2a a2c : Finset Hit) : Finset Hit :=
  (c2a ∪ a2c) \ (c2a ∩ a2c)

/-- First-stage `exclusive_hits` (lines 243-246): mutual hits neither of
whose endpoints occurs in any non-mutual hit. -/
def exclusiveStage1 (c2a a2c : Finset Hit) : Finset Hit :=
  (mutualHitsOf c2a a2c).filter (fun h =>
    h.1 ∉ (nonMutualHitsOf c2a a2c).image Prod.fst
    ∧ h.2 ∉ (nonMutualHitsOf c2a a2c).image Prod.snd)

/-- Capped `exclusive_hits` (lines 261-262): first-stage exclusive hits at
distance at most the good-hit threshold. -/
def exclusiveHitsOf (c2a a2c : Finset Hit) (d : Hit → ℚ) (ght : ℚ) : Finset Hit :=
  (exclusiveStage1 c2a a2c).filter (fun h => d h ≤ ght)

/-- `third_wheels` (line 268): non-mutual hits sharing the cluster endpoint
or the aligned endpoint with `h`. -/
def thirdWheels (nonMutual : Finset Hit) (h : Hit) : Finset Hit :=
  nonMutual.filter (fun t => h.1 = t.1 ∨ h.2 = t.2)

/-- One pass of the good-mutual loop body (lines 265-270) for a single
mutual, non-exclusive hit: `continue` when the distance exceeds the
threshold; otherwise take `min(self.hit_dists(third_wheels))`, which in
Python raises on an empty collection — modelled as `none`. -/
def goodMutualCheck (c2a a2c : Finset Hit) (d : Hit → ℚ) (ght : ℚ) (h : Hit) : Option Bool :=
  if d h > ght then some false
  else if htw : (thirdWheels (nonMutualHitsOf c2a a2c) h).Nonempty then
    some (decide (2 * ght < (thirdWheels (nonMutualHitsOf c2a a2c) h).inf' htw d))
  else none

/-- The four hit-category sets. -/
structure HitCats where
  nonMutual : Finset Hit
  badMutual : Finset Hit
  goodMutual : Finset Hit
  exclusive : Finset Hit
deriving DecidableEq

/-- The classification stage of `find_hits` (lines 240-286): computes the
four category sets from the two directional nearest-neighbor relations.
`none` models the `ValueError`/`min()`-on-empty crash in the good-mutual
loop; otherwise `good_mutual_hits` collects the pairs whose check returned
`true` and `bad_mutual_hits = mutual_hits - exclusive_hits - good_mutual_hits`
(line 271). -/
def findHitsClassify (c2a a2c : Finset Hit) (d : Hit → ℚ) (ght : ℚ) : Option HitCats :=
  let muthits := mutualHitsOf c2a a2c
  let excl := exclusiveHitsOf c2a a2c d ght
  if ∀ h ∈ muthits \ excl, (goodMutualCheck c2a a2c d ght h).isSome then
    let good := (muthits \ excl).filter (fun h => goodMutualCheck c2a a2c d ght h = some true)
    some ⟨nonMutualHitsOf c2a a2c, (muthits \ excl) \ good, good, excl⟩
  else none

/-! ### C10 and C2 -/

lemma third_wheels_nonempty_of_examined (c2a a2c : Finset Hit) (d : Hit → ℚ) (ght : ℚ)
    (h : Hit) (hmem : h ∈ mutualHitsOf c2a a2c \ exclusiveHitsOf c2a a2c d ght)
    (hdist : d h ≤ ght) : (thirdWheels (nonMutualHitsOf c2a a2c) h).Nonempty := by
  classical
  rcases Finset.mem_sdiff.mp hmem with ⟨hmut, hnotex⟩
  have hnotst1 : h ∉ exclusiveStage1 c2a a2c := by
    intro hst1
    exact hnotex (Finset.mem_filter.mpr ⟨hst1, hdist⟩)
  have : ¬ (h.1 ∉ (nonMutualHitsOf c2a a2c).image Prod.fst
      ∧ h.2 ∉ (nonMutualHitsOf c2a a2c).image Prod.snd) := by
    intro hboth
    exact hnotst1 (Finset.mem_filter.mpr ⟨hmut, hboth⟩)
  rcases not_and_or.mp this with hfst | hsnd
  · rcases Finset.mem_image.mp (not_not.mp hfst) with ⟨t, htnm, ht1⟩
    exact ⟨t, Finset.mem_filter.mpr ⟨htnm, Or.inl ht1.symm⟩⟩
  · rcases Finset.mem_image.mp (not_not.mp hsnd) with ⟨t, htnm, ht2⟩
    exact ⟨t, Finset.mem_filter.mpr ⟨htnm, Or.inr ht2.symm⟩⟩

/-- C10: in the good-mutual recovery loop, every mutual pair examined past
the distance check (distance ≤ the good-hit threshold, not in the capped
exclusive set) shares an endpoint with some non-mutual pair, so
`min(self.hit_dists(third_wheels))` is never taken over an empty collection
and the classification never crashes (`findHitsClassify` is always `some`). -/
theorem good_mutual_loop_never_fails (c2a a2c : Finset Hit) (d : Hit → ℚ) (ght : ℚ) :
    (∀ h ∈ mutualHitsOf c2a a2c \ exclusiveHitsOf c2a a2c d ght,
        d h ≤ ght → (thirdWheels (nonMutualHitsOf c2a a2c) h).Nonempty)
    ∧ (findHitsClassify c2a a2c d ght).isSome := by
  classical
  refine ⟨fun h hmem hdist => third_wheels_nonempty_of_examined c2a a2c d ght h hmem hdist, ?_⟩
  unfold findHitsClassify
  have hcond : ∀ h ∈ mutualHitsOf c2a a2c \ exclusiveHitsOf c2a a2c d ght,
      (goodMutualCheck c2a a2c d ght h).isSome := by
    intro h hmem
    unfold goodMutualCheck
    by_cases hgt : d h > ght
    · simp [hgt]
    · have hnz := third_wheels_nonempty_of_examined c2a a2c d ght h hmem (le_of_not_lt hgt)
      simp [hgt, hnz]
  rw [if_pos hcond]
  rfl

/-- C2: after every successful run of the classification, the four
hit-category sets (non-mutual, bad-mutual, good-mutual, exclusive) are
pairwise disjoint and their union is exactly the union of the two
directional nearest-neighbor relations — the property asserted at
fastqimagealigner.py lines 276-280. -/
theorem find_hits_partition (c2a a2c : Finset Hit) (d : Hit → ℚ) (ght : ℚ) (cats : HitCats)
    (hc : findHitsClassify c2a a2c d ght = some cats) :
    Disjoint cats.nonMutual cats.badMutual
    ∧ Disjoint cats.nonMutual cats.goodMutual
    ∧ Disjoint cats.nonMutual cats.exclusive
    ∧ Disjoint cats.badMutual cats.goodMutual
    ∧ Disjoint cats.badMutual cats.exclusive
    ∧ Disjoint cats.goodMutual cats.exclusive
    ∧ cats.nonMutual ∪ cats.badMutual ∪ cats.goodMutual ∪ cats.exclusive = c2a ∪ a2c := by
  classical
  unfold findHitsClassify at hc
  by_cases hcond : ∀ h ∈ mutualHitsOf c2a a2c \ exclusiveHitsOf c2a a2c d ght,
      (goodMutualCheck c2a a2c d ght h).isSome
  · rw [if_pos hcond] at hc
    have hcats := (Option.some_inj.mp hc).symm
    subst hcats
    set mu := mutualHitsOf c2a a2c with hmu
    set nm := nonMutualHitsOf c2a a2c with hnm
    set ex := exclusiveHitsOf c2a a2c d ght with hex
    set good := (mu \ ex).filter (fun h => goodMutualCheck c2a a2c d ght h = some true)
      with hgood
    have hexmu : ex ⊆ mu := by
      intro x hx
      exact (Finset.mem_filter.mp (Finset.mem_filter.mp hx).1).1
    have hgoodsub : good ⊆ mu \ ex := Finset.filter_subset _ _
    have hbadsub : (mu \ ex) \ good ⊆ mu \ ex := Finset.sdiff_subset
    have hdnm : Disjoint nm mu := by
      rw [hnm, hmu]
      unfold nonMutualHitsOf mutualHitsOf
      exact Finset.sdiff_disjoint
    have hsub_mu : (mu \ ex) \ good ⊆ mu := le_trans hbadsub Finset.sdiff_subset
    have hgood_mu : good ⊆ mu := le_trans hgoodsub Finset.sdiff_subset
    refine ⟨?_, ?_, ?_, ?_, ?_, ?_, ?_⟩
    · exact hdnm.mono_right hsub_mu
    · exact hdnm.mono_right hgood_mu
    · exact hdnm.mono_right hexmu
    · exact Finset.sdiff_disjoint
    · exact Finset.sdiff_disjoint.mono_left hbadsub
    · exact Finset.sdiff_disjoint.mono_left hgoodsub
    · have h1 : ((mu \ ex) \ good) ∪ good = mu \ ex :=
        Finset.sdiff_union_of_subset hgoodsub
      have h2 : (mu \ ex) ∪ ex = mu := Finset.sdiff_union_of_subset hexmu
      have h3 : nm ∪ mu = c2a ∪ a2c := by
        rw [hnm, hmu]
        unfold nonMutualHitsOf mutualHitsOf
        exact Finset.sdiff_union_of_subset
          (le_trans Finset.inter_subset_left Finset.subset_union_left)
      calc nm ∪ ((mu \ ex) \ good) ∪ good ∪ ex
          = nm ∪ ((((mu \ ex) \ good) ∪ good) ∪ ex) := by
            rw [Finset.union_assoc, Finset.union_assoc,
              Finset.union_assoc ((mu \ ex) \ good) good ex]
        _ = nm ∪ ((mu \ ex) ∪ ex) := by rw [h1]
        _ = nm ∪ mu := by rw [h2]
        _ = c2a ∪ a2c := h3
  · rw [if_neg hcond] at hc
    cases hc

/-- Witness for C2: the partition property instantiated at the concrete
run with both nearest-neighbor relations `{(0, 0)}`, zero distances and a
zero threshold, whose classification is `some ⟨∅, ∅, ∅, {(0, 0)}⟩`. -/
theorem find_hits_partition_witness :
    ({} : Finset Hit) ∪ {} ∪ {} ∪ {(0, 0)} = ({(0, 0)} : Finset Hit) ∪ {(0, 0)} :=
  (find_hits_partition {(0, 0)} {(0, 0)} (fun _ => 0) 0 ⟨{}, {}, {}, {(0, 0)}⟩
    (by decide)).2.2.2.2.2.2

/-! ## Precision alignment: `least_squares_mapping` and
`precision_align_only` (fastqimagealigner.py lines 295-387) -/

/-- `remove_longest_hits` (lines 210-216): empty input gives an empty list;
otherwise keep the hits whose distance is at most
`np.percentile(dists, pct_thresh * 100)`.  `percentileThresh` abstracts that
numpy percentile of the distance list (the trim fraction is baked into it). -/
def remove_longest_hits (dist : Hit → ℚ) (percentileThresh : List ℚ → ℚ)
    (hits : List Hit) : List Hit :=
  if hits = [] then []
  else hits.filter (fun h => dist h ≤ percentileThresh (hits.map dist))

/-- The control flow of `least_squares_mapping` (lines 336-366):
`found_good_mapping` starts `False`; for each hitting tile the candidate
pool (`get_hits(('exclusive', 'good_mutual'))` after
`find_hits(consider_tiles=tile)`, abstracted as `exclGoodMutualPool`) is
trimmed by `remove_longest_hits`; a tile with fewer than `min_hits`
remaining hits is skipped (`continue`), any other tile sets
`found_good_mapping = True`.  Returns `found_good_mapping`. -/
def least_squares_mapping (exclGoodMutualPool : Tile → List Hit) (dist : Hit → ℚ)
    (percentileThresh : List ℚ → ℚ) (minHits : ℕ) (hittingTiles : List Tile) : Bool :=
  hittingTiles.foldl (fun found tile =>
    if (remove_longest_hits dist percentileThresh (exclGoodMutualPool tile)).length < minHits
    then found else true) false

/-- The two error outcomes of `precision_align_only` (lines 377-387):
`RuntimeError('Alignment not found')` and
`ValueError("Could not precision align!")`. -/
inductive PrecisionError
  | alignmentNotFound
  | couldNotPrecisionAlign
deriving DecidableEq

/-- `precision_align_only` (lines 377-387): raise `alignmentNotFound` when
the hitting-tile list is empty (least squares never attempted); otherwise
run `least_squares_mapping` and raise `couldNotPrecisionAlign` iff it found
no good mapping. -/
def precision_align_only (exclGoodMutualPool : Tile → List Hit) (dist : Hit → ℚ)
    (percentileThresh : List ℚ → ℚ) (minHits : ℕ) (hittingTiles : List Tile) :
    Except PrecisionError Unit :=
  if hittingTiles = [] then Except.error PrecisionError.alignmentNotFound
  else if least_squares_mapping exclGoodMutualPool dist percentileThresh minHits hittingTiles
  then Except.ok ()
  else Except.error PrecisionError.couldNotPrecisionAlign

/-! ### C5 -/

lemma foldl_found_flag (p : Tile → Prop) [DecidablePred p] :
    ∀ (l : List Tile) (b : Bool),
      (l.foldl (fun found t => if p t then found else true) b = true)
        ↔ (b = true ∨ ∃ t ∈ l, ¬ p t) := by
  intro l
  induction l with
  | nil => intro b; simp
  | cons x xs ih =>
      intro b
      rw [List.foldl_cons, ih]
      by_cases hx : p x
      · simp [hx]
      · simp [hx]

/-- C5: `precision_align_only` fails with `alignmentNotFound` — without
attempting least squares — exactly when the hitting-tile list is empty;
otherwise it fails with the recoverable `couldNotPrecisionAlign` iff no
hitting tile's trimmed candidate pool (exclusive ∪ good-mutual hits after
`remove_longest_hits`) reaches the configured minimum size, and succeeds
iff some tile's pool does. -/
theorem precision_align_only_spec (exclGoodMutualPool : Tile → List Hit) (dist : Hit → ℚ)
    (percentileThresh : List ℚ → ℚ) (minHits : ℕ) (hittingTiles : List Tile) :
    (hittingTiles = [] →
      precision_align_only exclGoodMutualPool dist percentileThresh minHits hittingTiles
        = Except.error PrecisionError.alignmentNotFound)
    ∧ (hittingTiles ≠ [] →
        (precision_align_only exclGoodMutualPool dist percentileThresh minHits hittingTiles
            = Except.error PrecisionError.couldNotPrecisionAlign
          ↔ ∀ t ∈ hittingTiles,
              (remove_longest_hits dist percentileThresh (exclGoodMutualPool t)).length
                < minHits)
        ∧ (precision_align_only exclGoodMutualPool dist percentileThresh minHits hittingTiles
            = Except.ok ()
          ↔ ∃ t ∈ hittingTiles,
              minHits ≤
                (remove_longest_hits dist percentileThresh (exclGoodMutualPool t)).length)) := by
  classical
  constructor
  · intro hempty
    unfold precision_align_only
    rw [if_pos hempty]
  · intro hne
    have hfound := foldl_found_flag
      (fun t =>
        (remove_longest_hits dist percentileThresh (exclGoodMutualPool t)).length < minHits)
      hittingTiles false
    unfold precision_align_only
    rw [if_neg hne]
    unfold least_squares_mapping
    constructor
    · by_cases hb : hittingTiles.foldl (fun found tile =>
        if (remove_longest_hits dist percentileThresh (exclGoodMutualPool tile)).length < minHits
        then found else true) false = true
      · rw [if_pos hb]
        rcases hfound.mp hb with h | ⟨t, ht, hnot⟩
        · cases h
        · constructor
          · intro h; cases h
          · intro hall
            exact absurd (hall t ht) hnot
      · rw [if_neg hb]
        constructor
        · intro _
          intro t ht
          by_contra hnot
          exact hb (hfound.mpr (Or.inr ⟨t, ht, hnot⟩))
        · intro _; rfl
    · by_cases hb : hittingTiles.foldl (fun found tile =>
        if (remove_longest_hits dist percentileThresh (exclGoodMutualPool tile)).length < minHits
        then found else true) false = true
      · rw [if_pos hb]
        rcases hfound.mp hb with h | ⟨t, ht, hnot⟩
        · cases h
        · exact ⟨fun _ => ⟨t, ht, le_of_not_lt hnot⟩, fun _ => rfl⟩
      · rw [if_neg hb]
        constructor
        · intro h; cases h
        · intro ⟨t, ht, hge⟩
          exact absurd (hfound.mpr (Or.inr ⟨t, ht, not_lt.mpr hge⟩)) hb

/-! ## Output stream: `FastqImageAligner.read_names_rcs`
(fastqimagealigner.py lines 403-413) -/

/-- A hitting tile as `read_names_rcs` sees it: its read names, the
`rotation` attribute (absent — `none` — on a tile that was never actually
transformed), and its aligned pixel coordinates. -/
structure AlignedTile where
  readNames : List String
  rotation : Option ℚ
  alignedRcs : List (ℚ × ℚ)

/-- The triples one tile contributes to `read_names_rcs`: nothing when the
tile lacks a `rotation` attribute (the `hasattr` guard at lines 407-410);
else one `(read_name, pt[0], pt[1])` triple per element of
`izip(tile.read_names, tile.aligned_rcs)` with `0 <= pt[0] < im_shape[0]`
and `0 <= pt[1] < im_shape[1]`. -/
def tileReadTriples (imShape : ℕ × ℕ) (tile : AlignedTile) : List (String × ℚ × ℚ) :=
  match tile.rotation with
  | none => []
  | some _ =>
      (tile.readNames.zip tile.alignedRcs).filterMap (fun rp =>
        if 0 ≤ rp.2.1 ∧ rp.2.1 < (imShape.1 : ℚ) ∧ 0 ≤ rp.2.2 ∧ rp.2.2 < (imShape.2 : ℚ)
        then some (rp.1, rp.2) else none)

/-- `read_names_rcs` (lines 403-413): the concatenation, over the hitting
tiles, of each tile's in-bounds read triples. -/
def read_names_rcs (imShape : ℕ × ℕ) (hittingTiles : List AlignedTile) :
    List (String × ℚ × ℚ) :=
  hittingTiles.flatMap (tileReadTriples imShape)

/-! ### C9 -/

/-- C9: the output stream contains a `(read_name, row, column)` triple
exactly for the zipped (read name, aligned point) pairs of hitting tiles
that have a rotation attribute and whose point lies inside the image
bounds; a hitting tile lacking a rotation contributes no triples (and no
error — the stream is total). -/
theorem read_names_rcs_spec (imShape : ℕ × ℕ) (hittingTiles : List AlignedTile)
    (name : String) (pt : ℚ × ℚ) :
    ((name, pt) ∈ read_names_rcs imShape hittingTiles ↔
      ∃ tile ∈ hittingTiles, tile.rotation.isSome
        ∧ (name, pt) ∈ tile.readNames.zip tile.alignedRcs
        ∧ 0 ≤ pt.1 ∧ pt.1 < (imShape.1 : ℚ) ∧ 0 ≤ pt.2 ∧ pt.2 < (imShape.2 : ℚ))
    ∧ (∀ tile : AlignedTile, tile.rotation = none → tileReadTriples imShape tile = []) := by
  classical
  constructor
  · unfold read_names_rcs
    rw [List.mem_flatMap]
    constructor
    · rintro ⟨tile, htile, hmem⟩
      unfold tileReadTriples at hmem
      cases hrot : tile.rotation with
      | none => rw [hrot] at hmem; cases hmem
      | some r =>
          rw [hrot] at hmem
          rcases List.mem_filterMap.mp hmem with ⟨rp, hrp, hf⟩
          by_cases hcond : 0 ≤ rp.2.1 ∧ rp.2.1 < (imShape.1 : ℚ)
              ∧ 0 ≤ rp.2.2 ∧ rp.2.2 < (imShape.2 : ℚ)
          · rw [if_pos hcond] at hf
            have hrp_eq : rp = (name, pt) := by
              have := Option.some_inj.mp hf
              calc rp = (rp.1, rp.2) := rfl
                _ = (name, pt) := this
            subst hrp_eq
            exact ⟨tile, htile, by rw [hrot]; rfl, hrp, hcond.1, hcond.2.1,
              hcond.2.2.1, hcond.2.2.2⟩
          · rw [if_neg hcond] at hf
            cases hf
    · rintro ⟨tile, htile, hsome, hzip, hb1, hb2, hb3, hb4⟩
      refine ⟨tile, htile, ?_⟩
      unfold tileReadTriples
      obtain ⟨r, hrot⟩ := Option.isSome_iff_exists.mp hsome
      rw [hrot]
      refine List.mem_filterMap.mpr ⟨(name, pt), hzip, ?_⟩
      rw [if_pos ⟨hb1, hb2, hb3, hb4⟩]
  · intro tile hrot
    unfold tileReadTriples
    rw [hrot]

/-! ## Alignment record round-trip
(`alignment_from_alignment_file`, fastqimagealigner.py lines 79-84, and
`alignment_stats`, lines 389-401; the serializer/parser pair
`stats.AlignmentStats.from_data`/`from_file` lives in champ/stats.py, which
is not among the sources, and is modelled from the spec) -/

/-- Modelled from the spec: one per-tile entry of the alignment record
(champ/stats.py is not among the sources): tile key, scale, tile width,
rotation in degrees, (r, c) offset, and a hit count. -/
structure AlignmentRecordLine where
  tileKey : String
  scaling : ℚ
  tileWidth : ℚ
  rotation : ℚ
  rcOffset : ℚ × ℚ
  hitCount : ℕ
deriving DecidableEq

/-- Modelled from the spec: the line-oriented serialized form of one record
entry — the key field followed by the numeric fields, flattened in order. -/
def serializeLine (e : AlignmentRecordLine) : String × List ℚ × ℕ :=
  (e.tileKey, [e.scaling, e.tileWidth, e.rotation, e.rcOffset.1, e.rcOffset.2], e.hitCount)

/-- Modelled from the spec: `AlignmentStats.from_file` on one serialized
line: rebuild the entry, refusing a line with the wrong number of fields. -/
def parseLine : String × List ℚ × ℕ → Option AlignmentRecordLine
  | (k, [s, w, r, o1, o2], h) => some ⟨k, s, w, r, (o1, o2), h⟩
  | _ => none

/-- The serialized alignment record of `alignment_stats` (lines 389-401):
one line per hitting tile. -/
def serializeAlignmentStats (entries : List AlignmentRecordLine) :
    List (String × List ℚ × ℕ) :=
  entries.map serializeLine

/-- Modelled from the spec: parsing a whole record file. -/
def parseAlignmentFile (ls : List (String × List ℚ × ℕ)) :
    Option (List AlignmentRecordLine) :=
  ls.mapM parseLine

/-- Modelled from the spec: `FastqTileRCs.set_aligned_rcs_given_transform`
(champ/fastqtilercs.py is not among the sources) — map the tile's native
coordinates through the affine similarity transform
`scale · R(rotation) + offset`; `trig` supplies the (cos, sin) pair of the
recorded rotation value, abstracting floating-point trigonometry. -/
def set_aligned_rcs_given_transform (trig : ℚ → ℚ × ℚ) (scale rotation : ℚ)
    (offset : ℚ × ℚ) (rcs : List (ℚ × ℚ)) : List (ℚ × ℚ) :=
  rcs.map (fun p =>
    (scale * ((trig rotation).1 * p.1 - (trig rotation).2 * p.2) + offset.1,
     scale * ((trig rotation).2 * p.1 + (trig rotation).1 * p.2) + offset.2))

/-- `alignment_from_alignment_file` (lines 79-84): parse the record and, per
entry, re-apply the recorded transform to the tile's native coordinates
(`set_tile_alignment`, lines 70-77), producing each tile's aligned pixel
coordinates. -/
def alignment_from_alignment_file (trig : ℚ → ℚ × ℚ)
    (native : String → List (ℚ × ℚ)) (fileLines : List (String × List ℚ × ℕ)) :
    Option (List (String × List (ℚ × ℚ))) :=
  (parseAlignmentFile fileLines).map (fun entries =>
    entries.map (fun e =>
      (e.tileKey,
        set_aligned_rcs_given_transform trig e.scaling e.rotation e.rcOffset
          (native e.tileKey))))

/-! ### C7 -/

lemma parseLine_serializeLine (e : AlignmentRecordLine) :
    parseLine (serializeLine e) = some e := rfl

lemma parseAlignmentFile_serialize (entries : List AlignmentRecordLine) :
    parseAlignmentFile (serializeAlignmentStats entries) = some entries := by
  induction entries with
  | nil => rfl
  | cons e es ih =>
      unfold parseAlignmentFile serializeAlignmentStats at *
      rw [List.map_cons, List.mapM_cons, parseLine_serializeLine, ih]
      rfl

/-- C7: serializing an alignment record and re-parsing it through
`alignment_from_alignment_file`, then re-applying each recorded tile
transform (scale, rotation, offset) to the same native coordinates,
reproduces the original aligned pixel coordinates of every hitting tile. -/
theorem alignment_record_roundtrip (trig : ℚ → ℚ × ℚ)
    (native : String → List (ℚ × ℚ)) (entries : List AlignmentRecordLine) :
    parseAlignmentFile (serializeAlignmentStats entries) = some entries
    ∧ alignment_from_alignment_file trig native (serializeAlignmentStats entries)
      = some (entries.map (fun e =>
          (e.tileKey,
            set_aligned_rcs_given_transform trig e.scaling e.rotation e.rcOffset
              (native e.tileKey)))) := by
  refine ⟨parseAlignmentFile_serialize entries, ?_⟩
  unfold alignment_from_alignment_file
  rw [parseAlignmentFile_serialize entries]
  rfl

end Champ
